import Mathlib

/-!
Verification development for the generative-model core of `lib-python/models.py`
(cryodrgn): the `FTSliceDecoder` half-plane index arrays and conjugate-symmetric
image assembly, the pointwise `decode` coordinate negation, the Fourier
phase-shift `translate`, the `SO3reparameterize.sampleSO3` sampling switch, the
`HetOnlyVAE.cat_z` latent concatenation (modelled at the shape level), and the
`HetOnlyVAE.__init__` encoder-mode checks.

Machine integers do not occur on the verified paths: all index computation in
the source is exact integer arithmetic (modelled with `Nat`), and the tensor
payloads are modelled with `ℚ` (exact) for the pointwise-algebraic paths and
with `ℝ` for the trigonometric `translate` path.
-/

namespace FT

/-- `D2 = int(D/2)` from `FTSliceDecoder.__init__`. -/
def D2 (D : ℕ) : ℕ := D / 2

/-- `self.center = D2*D + D2`: flattened index of the central pixel. -/
def center (D : ℕ) : ℕ := D2 D * D + D2 D

/-- `np.arange(start, stop, step)` for a positive step: the values
`start, start+step, ...` strictly below `stop`. -/
def arangeStep (start stop step : ℕ) : List ℕ :=
  (List.range ((stop - start + step - 1) / step)).map fun k => start + step * k

/-- `self.extra = np.arange((D2+1)*D, D**2, D)`: the bottom-left column
without a conjugate pair. -/
def extra (D : ℕ) : List ℕ := arangeStep ((D2 D + 1) * D) (D ^ 2) D

/-- `self.all_eval = np.concatenate((np.arange(self.center+1), self.extra))`. -/
def all_eval (D : ℕ) : List ℕ := List.range (center D + 1) ++ extra D

/-- Row-major raveling `(j*D+i).ravel()` of
`i, j = np.meshgrid(np.arange(ilo,ihi), np.arange(jlo,jhi))`:
for each row `j = jlo..jhi-1` and column `i = ilo..ihi-1`, the value `j*D+i`. -/
def meshRavel (D jlo jhi ilo ihi : ℕ) : List ℕ :=
  (List.range (jhi - jlo)).flatMap fun a =>
    (List.range (ihi - ilo)).map fun b => (jlo + a) * D + (ilo + b)

/-- `self.top = (j*D+i).ravel()[:-D2]` for
`i, j = np.meshgrid(np.arange(1,D), np.arange(1,D2+1))`. -/
def top (D : ℕ) : List ℕ :=
  let l := meshRavel D 1 (D2 D + 1) 1 D
  l.take (l.length - D2 D)

/-- `self.bottom_rev = (j*D+i).ravel()[D2:][::-1]` for
`i, j = np.meshgrid(np.arange(1,D), np.arange(D2,D))`. -/
def bottom_rev (D : ℕ) : List ℕ :=
  ((meshRavel D (D2 D) D 1 D).drop (D2 D)).reverse

/-- A lattice row as seen by `FTSliceDecoder.decode`: three spatial
coordinates (indices 0,1,2 of the trailing dimension) followed by the latent
tail of the `3+zdim`-dimensional input. -/
abbrev Pt (L : Type) : Type := (ℚ × ℚ × ℚ) × L

/-- The z coordinate `lattice[...,2]` of a lattice row. -/
def zc {L : Type} (p : Pt L) : ℚ := p.1.2.2

/-- Negation of the three spatial coordinates `lattice[...,0:3]` only. -/
def negXYZ {L : Type} (p : Pt L) : Pt L := ((-p.1.1, -p.1.2.1, -p.1.2.2), p.2)

/-- Negation of a bare 3-vector (the `-p` of the spec's central-slice law). -/
def neg3 (p : ℚ × ℚ × ℚ) : ℚ × ℚ × ℚ := (-p.1, -p.2.1, -p.2.2)

/-- The in-place update `lattice[...,0:3][w] = -lattice[...,0:3][w]` applied to
one row: coordinates are negated exactly when `lattice[...,2] > 0.0`. -/
def decodeUpd {L : Type} (p : Pt L) : Pt L := if 0 < zc p then negXYZ p else p

/-- The per-row value computed by `FTSliceDecoder.decode`: the learned function
`f` is evaluated on the (possibly negated) row, and the imaginary output
component is negated for exactly the rows that were flipped
(`result[...,1][w] *= -1`). -/
def decodeVal {L : Type} (f : Pt L → ℚ × ℚ) (p : Pt L) : ℚ × ℚ :=
  let v := f (decodeUpd p)
  if 0 < zc p then (v.1, -v.2) else v

/-- `FTSliceDecoder.decode` on a family of rows, with the caller's buffer made
explicit: the first component is the returned `result`, the second component is
the state of the caller's `lattice` buffer after the call (the source mutates
it in place via the masked assignment on the `lattice[...,0:3]` view). -/
def decode {L ι : Type} (f : Pt L → ℚ × ℚ) (lattice : ι → Pt L) :
    (ι → ℚ × ℚ) × (ι → Pt L) :=
  (fun i => decodeVal f (lattice i), fun i => decodeUpd (lattice i))

/-- Hartley-pair conjugation `* torch.tensor([1.,-1.])`. -/
def conj2 (v : ℚ × ℚ) : ℚ × ℚ := (v.1, -v.2)

/-- Sequential indexed writes into an image buffer: later writes win.
`writeList img idx vals` performs `img[idx[k]] = vals[k]` for `k = 0,1,...`.
The base buffer is `Option`-valued so that `torch.empty` is `fun _ => none`. -/
def writeList {α : Type} (img : ℕ → Option α) : List ℕ → List α → ℕ → Option α
  | [], _, p => img p
  | _ :: _, [], p => img p
  | q :: qs, v :: vs, p =>
      writeList (fun x => if x = q then some v else img x) qs vs p

/-- `top_half = self.decode(lattice[...,self.all_eval,:])` of
`FTSliceDecoder.forward`: the gather `lattice[..., all_eval, :]` produces a
fresh copy, and `decode` acts pointwise on its rows. -/
def top_half {L : Type} (f : Pt L → ℚ × ℚ) (lattice : ℕ → Pt L) (D : ℕ) :
    List (ℚ × ℚ) :=
  ((all_eval D).map lattice).map (decodeVal f)

/-- `FTSliceDecoder.forward`: write `top_half` at the `all_eval` pixels, then
write the conjugated values `top_half[..., self.top, :] * [1,-1]` at the
`bottom_rev` pixels.  The result maps a flattened pixel index to its written
value (`none` = never written, i.e. uninitialised `torch.empty` memory). -/
def forward {L : Type} (f : Pt L → ℚ × ℚ) (lattice : ℕ → Pt L) (D : ℕ) :
    ℕ → Option (ℚ × ℚ) :=
  writeList
    (writeList (fun _ => none) (all_eval D) (top_half f lattice D))
    (bottom_rev D)
    ((top D).map fun t => conj2 ((top_half f lattice D).getD t (0, 0)))

/-- `tfilt = coords @ -t * -2 * np.pi` for one pixel's wavevector. -/
noncomputable def tfilt (c t : ℝ × ℝ) : ℝ :=
  (c.1 * -t.1 + c.2 * -t.2) * -2 * Real.pi

/-- `FTSliceDecoder.translate` for a single shift: per pixel, the
(real, imag) pair is rotated by the phase `tfilt`:
`[x*cos - y*sin, x*sin + y*cos]`. -/
noncomputable def translate1 {ι : Type} (coords img : ι → ℝ × ℝ) (t : ℝ × ℝ) :
    ι → ℝ × ℝ := fun n =>
  ((img n).1 * Real.cos (tfilt (coords n) t) - (img n).2 * Real.sin (tfilt (coords n) t),
   (img n).1 * Real.sin (tfilt (coords n) t) + (img n).2 * Real.cos (tfilt (coords n) t))

/-- `FTSliceDecoder.translate`: the output carries the added shift dimension
(one translated image per requested shift). -/
noncomputable def translate {ι τ : Type} (coords img : ι → ℝ × ℝ)
    (t : τ → ℝ × ℝ) : τ → ι → ℝ × ℝ := fun k => translate1 coords img (t k)

/-- 3×3 rational matrices, the return type of the `lie_tools` conversions. -/
abbrev Mat3 : Type := Matrix (Fin 3) (Fin 3) ℚ

/-- The dynamic return type of `SO3reparameterize.sampleSO3`: in evaluation
mode the source returns the pair `(z_mu, z_std)` (a 4-vector and a 3-vector),
in training mode it returns `(rot_sampled, w_eps)` (a 3×3 matrix and a
3-vector). -/
inductive SO3Result where
  | evalMode (z_mu : Fin 4 → ℚ) (z_std : Fin 3 → ℚ)
  | trainMode (rot : Mat3) (w_eps : Fin 3 → ℚ)

/-- Whether a `sampleSO3` result actually is a rotation-matrix result. -/
def SO3Result.isRotation : SO3Result → Bool
  | .trainMode _ _ => true
  | .evalMode _ _ => false

/-- `SO3reparameterize.sampleSO3`.  The external `lie_tools.expmap` and
`lie_tools.quaternions_to_SO3` are parameters (they live outside this file's
source), the `self.training` flag and the random draw `eps = torch.randn_like`
are explicit arguments.  `if not self.training: return z_mu, z_std`; otherwise
`w_eps = eps*z_std`, `rot_sampled = quaternions_to_SO3(z_mu) @ expmap(w_eps)`. -/
def sampleSO3 (expmap : (Fin 3 → ℚ) → Mat3)
    (quaternions_to_SO3 : (Fin 4 → ℚ) → Mat3) (training : Bool)
    (z_mu : Fin 4 → ℚ) (z_std : Fin 3 → ℚ) (eps : Fin 3 → ℚ) : SO3Result :=
  if training then
    let w_eps := fun i => eps i * z_std i
    SO3Result.trainMode (quaternions_to_SO3 z_mu * expmap w_eps) w_eps
  else SO3Result.evalMode z_mu z_std

/-- `torch.Tensor.view`: succeeds exactly when the number of elements is
preserved. -/
def viewOk (numel : ℕ) (target : List ℕ) : Bool := target.prod == numel

/-- `torch.Tensor.expand`: the target may not have fewer dimensions, and each
(right-aligned) source dimension must equal the target one or be 1. -/
def expandOk (src target : List ℕ) : Bool :=
  src.length ≤ target.length &&
    (src.reverse.zip target.reverse).all fun st => st.1 == st.2 || st.1 == 1

/-- `torch.cat(..., dim=-1)` of two tensors: all leading dimensions must
agree; trailing dimensions add. -/
def catLast (s1 s2 : List ℕ) : Option (List ℕ) :=
  if s1.dropLast = s2.dropLast then
    some (s1.dropLast ++ [s1.getLast?.getD 0 + s2.getLast?.getD 0])
  else none

/-- `HetOnlyVAE.cat_z` at the shape level.  `coordsShape` is the shape of
`coords`, `B = z.size(0)` and `z_dim = z.size(1)` the shape of the latent.
`assert coords.shape[-1] == 3`;
`z = z.view(z.size(0), *([1]*(coords.ndimension()-1)))`;
`z = torch.cat((coords, z.expand(*coords.shape[:-1], 1)), dim=-1)`.
Returns `none` when a step raises. -/
def cat_z (coordsShape : List ℕ) (B z_dim : ℕ) : Option (List ℕ) :=
  if coordsShape.getLast? = some 3 then
    let zv := B :: List.replicate (coordsShape.length - 1) 1
    if viewOk (B * z_dim) zv then
      let target := coordsShape.dropLast ++ [1]
      if expandOk zv target then catLast coordsShape target else none
    else none
  else none

/-- The construction-time checks of `HetOnlyVAE.__init__` relevant to the
encoder mode: `assert lattice.D == 64` for the conv encoder, and the
unrecognised-mode `RuntimeError`. -/
def hetOnlyVAEInit (encode_mode : String) (D : ℕ) : Except String Unit :=
  if encode_mode = "conv" then
    if D = 64 then Except.ok ()
    else Except.error "CNN encoder is hard-coded for 64x64 images"
  else if encode_mode = "resid" then Except.ok ()
  else if encode_mode = "mlp" then Except.ok ()
  else if encode_mode = "tilt" then Except.ok ()
  else Except.error ("Encoder mode " ++ encode_mode ++ " not recognized")

/-- Concrete decoder function used by the evaluation witnesses. -/
def f0 : Pt Unit → ℚ × ℚ := fun p => (p.1.1 + p.1.2.1, p.1.2.2)

/-- Concrete lattice used by the evaluation witnesses (some rows have z > 0). -/
def lat0 : ℕ → Pt Unit := fun n => (((n : ℚ), 2, (n : ℚ) - 1), ())

/-- Concrete decoder over a nontrivial latent tail, for the mutation witness. -/
def f9 : Pt ℚ → ℚ × ℚ := fun p => (p.2 + p.1.1, p.1.2.1)

/-- Concrete two-row lattice with a z > 0 row and a z < 0 row. -/
def lat9 : Fin 2 → Pt ℚ := fun i => if i = 0 then ((1, 2, 3), 7) else ((4, 5, -6), 8)

end FT

namespace FT

/-- C1: with sampling disabled (`training = false`), `sampleSO3` is a pure
function of `(z_mu, z_std)` (identical inputs give identical outputs,
independent of the random draw `eps`), and the value returned is the raw
parameter pair `(z_mu, z_std)` — in particular it is not a rotation-matrix
result at all, so it does not equal `quaternions_to_SO3(z_mu)`. -/
theorem sampleSO3_eval_mode_returns_params
    (expmap : (Fin 3 → ℚ) → Mat3) (quaternions_to_SO3 : (Fin 4 → ℚ) → Mat3)
    (z_mu : Fin 4 → ℚ) (z_std : Fin 3 → ℚ) (eps eps' : Fin 3 → ℚ) :
    sampleSO3 expmap quaternions_to_SO3 false z_mu z_std eps
        = SO3Result.evalMode z_mu z_std ∧
    sampleSO3 expmap quaternions_to_SO3 false z_mu z_std eps
        = sampleSO3 expmap quaternions_to_SO3 false z_mu z_std eps' ∧
    (sampleSO3 expmap quaternions_to_SO3 false z_mu z_std eps).isRotation
        = false :=
  ⟨rfl, rfl, rfl⟩

/-- C4 (counterexample): for D = 8 the index arrays `top` and `bottom_rev`
built by the `FTSliceDecoder` constructor have length 24, not 27. -/
theorem top_bottom_rev_length_D8 :
    (top 8).length = 24 ∧ (bottom_rev 8).length = 24 := by decide

/-- C4 (amended): for D = 8, `all_eval ∪ bottom_rev` covers each of the 64
flattened pixel indices exactly once with no duplicates, and
`len(top) = len(bottom_rev) = 24`. -/
theorem index_coverage_D8 :
    ((List.range 64).all fun p => ((all_eval 8 ++ bottom_rev 8).count p) == 1)
        = true ∧
    (all_eval 8 ++ bottom_rev 8).length = 64 ∧
    (top 8).length = 24 ∧ (bottom_rev 8).length = 24 := by decide

/-- C5: for a single point `p` with `p.z > 0`, `decode [p]` equals
`(real, -imag)` of `decode [-p]`, each call on its own fresh buffer. -/
theorem decode_negation_consistency (f : Pt Unit → ℚ × ℚ) (p : ℚ × ℚ × ℚ)
    (hp : 0 < p.2.2) :
    (decode f fun _ : Fin 1 => (p, ())).1 =
      fun i => conj2 ((decode f fun _ : Fin 1 => (neg3 p, ())).1 i) := by
  funext i
  have h1 : ¬ (0:ℚ) < -p.2.2 := not_lt.mpr (by linarith)
  simp [decode, decodeVal, decodeUpd, zc, negXYZ, neg3, conj2, hp, h1]

theorem decode_negation_consistency_witness :
    (decode f0 fun _ : Fin 1 => (((1, 2, 3) : ℚ × ℚ × ℚ), ())).1 =
      fun i =>
        conj2 ((decode f0 fun _ : Fin 1 => (neg3 ((1, 2, 3) : ℚ × ℚ × ℚ), ())).1 i) :=
  decode_negation_consistency f0 (1, 2, 3) (by decide)

/-- C9: `decode` mutates the caller's lattice buffer: every row whose z
coordinate is strictly positive has its three spatial coordinates negated in
the buffer after the call (so the buffer is not left unchanged: its z
coordinate there is now negative), while every row with z ≤ 0 is untouched. -/
theorem decode_mutates_input {L ι : Type} (f : Pt L → ℚ × ℚ)
    (lattice : ι → Pt L) (i0 : ι) (h : 0 < zc (lattice i0)) :
    (decode f lattice).2 i0 = (neg3 (lattice i0).1, (lattice i0).2) ∧
    zc ((decode f lattice).2 i0) < 0 ∧
    ∀ i, zc (lattice i) ≤ 0 → (decode f lattice).2 i = lattice i := by
  refine ⟨?_, ?_, ?_⟩
  · simp [decode, decodeUpd, h, negXYZ, neg3]
  · simp only [decode, decodeUpd, if_pos h]
    simp only [zc, negXYZ] at h ⊢
    linarith
  · intro i hi
    have hni : ¬ 0 < zc (lattice i) := not_lt.mpr hi
    simp [decode, decodeUpd, hni]

theorem decode_mutates_input_witness :
    (decode f9 lat9).2 0 = (neg3 (lat9 0).1, (lat9 0).2) ∧
    zc ((decode f9 lat9).2 0) < 0 :=
  ⟨(decode_mutates_input f9 lat9 0 (by decide)).1,
   (decode_mutates_input f9 lat9 0 (by decide)).2.1⟩

/-- C10: constructing a `HetOnlyVAE` with `encode_mode = 'conv'` and a lattice
size `D ≠ 64` fails at construction with the descriptive assertion message. -/
theorem conv_encoder_requires_64 (D : ℕ) (h : D ≠ 64) :
    hetOnlyVAEInit "conv" D =
      Except.error "CNN encoder is hard-coded for 64x64 images" := by
  simp [hetOnlyVAEInit, h]

theorem conv_encoder_requires_64_witness :
    hetOnlyVAEInit "conv" 32 =
      Except.error "CNN encoder is hard-coded for 64x64 images" :=
  conv_encoder_requires_64 32 (by decide)

/-- C8: `cat_z` at the failing input: with `z_dim = 2` (coords of shape
`(1,5,3)`, latent of shape `(1,2)`) the `view` raises, so `cat_z` does not
produce a trailing dimension of `3 + z_dim = 5`; with `z_dim = 1` it succeeds
and the trailing dimension is 4 (the hard-coded `expand(..., 1)`). -/
theorem cat_z_shape_behaviour :
    cat_z [1, 5, 3] 1 2 = none ∧ cat_z [1, 5, 3] 1 1 = some [1, 5, 4] := by
  decide

/-- C7: translating by the zero shift returns the original image values
unchanged at every pixel, for every requested shift slot (the output keeps
the added shift dimension). -/
theorem translate_zero_shift {ι τ : Type} (coords img : ι → ℝ × ℝ) :
    translate coords img (fun _ : τ => ((0:ℝ), (0:ℝ))) = fun _ => img := by
  funext k n
  have h0 : tfilt (coords n) ((0:ℝ), (0:ℝ)) = 0 := by simp [tfilt]
  simp only [translate, translate1, h0, Real.cos_zero, Real.sin_zero]
  simp

/-- C6: translating with shift `s₁` and then translating the result with
shift `s₂` equals a single translation with shift `s₁ + s₂` (the phase is
linear in the shift and the per-pixel rotations compose). -/
theorem translate_additive {ι τ : Type} (coords img : ι → ℝ × ℝ)
    (t1 t2 : τ → ℝ × ℝ) (k1 k2 : τ) :
    translate coords (translate coords img t1 k1) t2 k2 =
      translate coords img (fun _ => t1 k1 + t2 k2) k2 := by
  funext n
  have hadd : tfilt (coords n) (t1 k1 + t2 k2)
      = tfilt (coords n) (t1 k1) + tfilt (coords n) (t2 k2) := by
    simp only [tfilt, Prod.fst_add, Prod.snd_add]
    ring
  simp only [translate, translate1, hadd, Real.cos_add, Real.sin_add,
    Prod.mk.injEq]
  exact ⟨by ring, by ring⟩

end FT

namespace FT

/-- Row-major flattening of a rectangular nest of ranges. -/
theorem range_flatMap_map {α : Type} (m : ℕ) (hm : 0 < m) (f : ℕ → ℕ → α) :
    ∀ n : ℕ, (List.range n).flatMap (fun a => (List.range m).map (f a)) =
      (List.range (n * m)).map fun k => f (k / m) (k % m) := by
  intro n
  induction n with
  | zero => simp
  | succ n ih =>
    rw [List.range_succ, List.flatMap_append, ih, Nat.succ_mul, List.range_add,
      List.map_append, List.map_map]
    congr 1
    rw [List.flatMap_cons, List.flatMap_nil, List.append_nil]
    refine List.map_congr_left fun b hb => ?_
    have hbm : b < m := List.mem_range.mp hb
    simp only [Function.comp_apply]
    rw [Nat.mul_comm n m, Nat.mul_add_div hm, Nat.mul_add_mod,
      Nat.div_eq_of_lt hbm, Nat.mod_eq_of_lt hbm, Nat.add_zero]

theorem sum_map_const_nat (n c : ℕ) :
    ((List.range n).map fun _ => c).sum = n * c := by
  induction n with
  | zero => simp
  | succ n ih =>
    rw [List.range_succ, List.map_append, List.sum_append, ih]
    simp [Nat.succ_mul]

theorem meshRavel_length (D jlo jhi ilo ihi : ℕ) :
    (meshRavel D jlo jhi ilo ihi).length = (jhi - jlo) * (ihi - ilo) := by
  rw [meshRavel, List.length_flatMap]
  have hmap : List.map
      (List.length ∘ fun a => (List.range (ihi - ilo)).map fun b => (jlo + a) * D + (ilo + b))
      (List.range (jhi - jlo)) = (List.range (jhi - jlo)).map fun _ => ihi - ilo := by
    refine List.map_congr_left fun a _ => ?_
    simp
  rw [hmap, sum_map_const_nat]

theorem range_drop (m n : ℕ) :
    (List.range n).drop m = (List.range (n - m)).map fun x => m + x := by
  rcases le_or_lt m n with h | h
  · have hsplit := List.range_add m (n - m)
    rw [show m + (n - m) = n from by omega] at hsplit
    rw [hsplit]
    have hlen := List.drop_left (List.range m) ((List.range (n - m)).map fun x => m + x)
    rwa [List.length_range] at hlen
  · rw [List.drop_eq_nil_of_le (by simp [List.length_range]; omega)]
    rw [Nat.sub_eq_zero_of_le (le_of_lt h)]
    simp

theorem meshRavel_eq (D jlo jhi ilo ihi : ℕ) (h : ilo < ihi) :
    meshRavel D jlo jhi ilo ihi =
      (List.range ((jhi - jlo) * (ihi - ilo))).map fun k =>
        (jlo + k / (ihi - ilo)) * D + (ilo + k % (ihi - ilo)) := by
  unfold meshRavel
  exact range_flatMap_map (ihi - ilo) (by omega)
    (fun a b => (jlo + a) * D + (ilo + b)) (jhi - jlo)

theorem top_length (D : ℕ) : (top D).length = D2 D * (D - 1) - D2 D := by
  simp only [top, List.length_take, meshRavel_length, Nat.add_sub_cancel]
  exact inf_eq_left.mpr (Nat.sub_le _ _)

theorem bottom_rev_length (D : ℕ) :
    (bottom_rev D).length = (D - D2 D) * (D - 1) - D2 D := by
  simp only [bottom_rev, List.length_reverse, List.length_drop, meshRavel_length]

theorem top_eq (D : ℕ) (hD : 2 ≤ D) :
    top D = (List.range (D2 D * (D - 1) - D2 D)).map fun k =>
      (1 + k / (D - 1)) * D + (1 + k % (D - 1)) := by
  have h1 : (1:ℕ) < D := hD
  simp only [top]
  rw [meshRavel_eq D 1 (D2 D + 1) 1 D h1]
  simp only [List.length_map, List.length_range, Nat.add_sub_cancel]
  rw [← List.map_take, List.take_range]
  rw [inf_eq_left.mpr (Nat.sub_le _ _)]

theorem top_getD (D : ℕ) (hD : 2 ≤ D) (k : ℕ)
    (hk : k < D2 D * (D - 1) - D2 D) :
    (top D).getD k 0 = (1 + k / (D - 1)) * D + (1 + k % (D - 1)) := by
  rw [top_eq D hD]
  rw [List.getD_eq_getElem _ _ (by simpa using hk)]
  simp

/-- Nondegeneracy facts implied by a valid index into `top`. -/
theorem degenerate_bounds (D : ℕ) (hD : D % 2 = 0) (k : ℕ)
    (hk : k < D2 D * (D - 1) - D2 D) :
    1 ≤ D2 D ∧ 2 ≤ D - 1 ∧ D = 2 * D2 D ∧ 4 ≤ D := by
  have hDD : D = 2 * D2 D := by unfold D2; omega
  have hpos : 0 < D2 D * (D - 1) - D2 D := lt_of_le_of_lt (Nat.zero_le k) hk
  have h1 : 1 ≤ D2 D := by
    by_contra hc
    have h0 : D2 D = 0 := by omega
    rw [h0] at hpos
    simp at hpos
  have h2 : 2 ≤ D - 1 := by
    by_contra hc
    have hle : D2 D * (D - 1) ≤ D2 D * 1 := Nat.mul_le_mul_left _ (by omega)
    rw [Nat.mul_one] at hle
    omega
  exact ⟨h1, h2, hDD, by omega⟩

/-- Division and remainder of the reflected position `m*n - 1 - k`. -/
theorem sub_div_mod (m n k : ℕ) (hn : 0 < n) (hk : k < m * n - m) :
    (m * n - 1 - k) / n = m - 1 - k / n ∧
    (m * n - 1 - k) % n = n - 1 - k % n := by
  have hq : k / n < m := by
    rw [Nat.div_lt_iff_lt_mul hn]
    exact lt_of_lt_of_le hk (Nat.sub_le _ _)
  have hr : k % n < n := Nat.mod_lt _ hn
  have hmod := Nat.div_add_mod k n
  have hmn : m * n = n * m := Nat.mul_comm m n
  rw [hmn] at hk ⊢
  have hscaled : n * (k / n) + n ≤ n * m := by
    calc n * (k / n) + n = n * (k / n + 1) := by ring
      _ ≤ n * m := Nat.mul_le_mul_left n hq
  have hkey : n * m - 1 - k = n * (m - 1 - k / n) + (n - 1 - k % n) := by
    have e1 : n * (m - 1 - k / n) = n * m - n - n * (k / n) := by
      rw [Nat.sub_sub, Nat.mul_sub, Nat.mul_add, Nat.mul_one]
      omega
    rw [e1]
    omega
  have hlt : n - 1 - k % n < n := by omega
  constructor
  · rw [hkey, Nat.mul_add_div hn, Nat.div_eq_of_lt hlt, Nat.add_zero]
  · rw [hkey, Nat.mul_add_mod, Nat.mod_eq_of_lt hlt]

theorem bottom_rev_getD (D : ℕ) (hD : D % 2 = 0) (k : ℕ)
    (hk : k < D2 D * (D - 1) - D2 D) :
    (bottom_rev D).getD k 0 =
      (D - 1 - k / (D - 1)) * D + (D - 1 - k % (D - 1)) := by
  obtain ⟨hd1, hd2, hd3, hd4⟩ := degenerate_bounds D hD k hk
  have h1D : (1:ℕ) < D := by omega
  have hrows : D - D2 D = D2 D := by omega
  unfold bottom_rev
  rw [meshRavel_eq D (D2 D) D 1 D h1D, ← List.map_drop, range_drop, List.map_map,
    hrows]
  have hlen : k < (((List.range (D2 D * (D - 1) - D2 D)).map
      ((fun p => (D2 D + p / (D - 1)) * D + (1 + p % (D - 1))) ∘
        fun x => D2 D + x)).reverse).length := by
    simpa using hk
  rw [List.getD_eq_getElem _ _ hlen, List.getElem_reverse]
  simp only [List.length_map, List.length_range, List.getElem_map,
    List.getElem_range, Function.comp_apply]
  have hp : D2 D + (D2 D * (D - 1) - D2 D - 1 - k) = D2 D * (D - 1) - 1 - k := by
    omega
  rw [hp]
  obtain ⟨hdiv, hmodd⟩ := sub_div_mod (D2 D) (D - 1) k (by omega) hk
  rw [hdiv, hmodd]
  have hq : k / (D - 1) < D2 D := by
    rw [Nat.div_lt_iff_lt_mul (by omega)]
    exact lt_of_lt_of_le hk (Nat.sub_le _ _)
  have hr : k % (D - 1) < D - 1 := Nat.mod_lt _ (by omega)
  have e1 : D2 D + (D2 D - 1 - k / (D - 1)) = D - 1 - k / (D - 1) := by omega
  have e2 : 1 + (D - 1 - 1 - k % (D - 1)) = D - 1 - k % (D - 1) := by omega
  rw [e1, e2]

end FT

namespace FT

/-- Unique decomposition of a flattened pixel index with in-range column. -/
theorem mul_add_parts (D x y x' y' : ℕ) (hy : y < D) (hy' : y' < D)
    (h : x * D + y = x' * D + y') : x = x' ∧ y = y' := by
  have hD : 0 < D := by omega
  have e1 : (x * D + y) / D = x := by
    rw [Nat.mul_comm x D, Nat.mul_add_div hD, Nat.div_eq_of_lt hy, Nat.add_zero]
  have e2 : (x' * D + y') / D = x' := by
    rw [Nat.mul_comm x' D, Nat.mul_add_div hD, Nat.div_eq_of_lt hy', Nat.add_zero]
  have e3 : (x * D + y) % D = y := by
    rw [Nat.mul_comm x D, Nat.mul_add_mod, Nat.mod_eq_of_lt hy]
  have e4 : (x' * D + y') % D = y' := by
    rw [Nat.mul_comm x' D, Nat.mul_add_mod, Nat.mod_eq_of_lt hy']
  constructor
  · rw [← e1, ← e2, h]
  · rw [← e3, ← e4, h]

/-- When the row index is maximal, the column index of a valid `top` index is
correspondingly restricted (the dropped tail of the ravel). -/
theorem mod_bound_of_div_max (m n k : ℕ) (_hn : 0 < n) (hk : k < m * n - m)
    (hqe : k / n + 1 = m) : k % n + m < n := by
  have hmod := Nat.div_add_mod k n
  obtain ⟨q, hq⟩ : ∃ q, q = k / n := ⟨_, rfl⟩
  obtain ⟨r, hr⟩ : ∃ r, r = k % n := ⟨_, rfl⟩
  rw [← hq] at hqe hmod
  rw [← hr] at hmod ⊢
  have hm1 : 1 ≤ m := by omega
  have hqv : q = m - 1 := by omega
  rw [hqv] at hmod
  have hexp : n * (m - 1) = n * m - n := by rw [Nat.mul_sub, Nat.mul_one]
  rw [hexp] at hmod
  have hnm : n ≤ n * m := Nat.le_mul_of_pos_right n hm1
  rw [Nat.mul_comm m n] at hk
  omega

/-- Every entry of `top` is strictly below the center pixel. -/
theorem top_getD_lt_center (D : ℕ) (hD : D % 2 = 0) (k : ℕ)
    (hk : k < D2 D * (D - 1) - D2 D) :
    (top D).getD k 0 < center D := by
  obtain ⟨hd1, hd2, hd3, hd4⟩ := degenerate_bounds D hD k hk
  rw [top_getD D (by omega) k hk]
  have hn : 0 < D - 1 := by omega
  have hq : k / (D - 1) < D2 D := by
    rw [Nat.div_lt_iff_lt_mul hn]
    exact lt_of_lt_of_le hk (Nat.sub_le _ _)
  have hr : k % (D - 1) < D - 1 := Nat.mod_lt _ hn
  have hDle : D ≤ D2 D * D := by
    calc D = 1 * D := (Nat.one_mul D).symm
      _ ≤ D2 D * D := Nat.mul_le_mul_right D hd1
  rcases Nat.lt_or_ge (k / (D - 1) + 1) (D2 D) with hcase | hcase
  · have hstep : (1 + k / (D - 1)) * D ≤ (D2 D - 1) * D :=
      Nat.mul_le_mul_right D (by omega)
    have hsub : (D2 D - 1) * D = D2 D * D - D := by
      rw [Nat.sub_mul, Nat.one_mul]
    unfold center
    omega
  · have hqe : k / (D - 1) + 1 = D2 D := by omega
    have hrD : k % (D - 1) + D2 D < D - 1 :=
      mod_bound_of_div_max (D2 D) (D - 1) k hn hk hqe
    have hj : 1 + k / (D - 1) = D2 D := by omega
    rw [hj]
    unfold center
    omega

/-- Every entry of `bottom_rev` is strictly above the center pixel. -/
theorem center_lt_bottom_rev_getD (D : ℕ) (hD : D % 2 = 0) (k : ℕ)
    (hk : k < D2 D * (D - 1) - D2 D) :
    center D < (bottom_rev D).getD k 0 := by
  obtain ⟨hd1, hd2, hd3, hd4⟩ := degenerate_bounds D hD k hk
  rw [bottom_rev_getD D hD k hk]
  have hn : 0 < D - 1 := by omega
  have hq : k / (D - 1) < D2 D := by
    rw [Nat.div_lt_iff_lt_mul hn]
    exact lt_of_lt_of_le hk (Nat.sub_le _ _)
  have hr : k % (D - 1) < D - 1 := Nat.mod_lt _ hn
  rcases Nat.lt_or_ge (k / (D - 1) + 1) (D2 D) with hcase | hcase
  · have hjge : D2 D + 1 ≤ D - 1 - k / (D - 1) := by omega
    have hstep : (D2 D + 1) * D ≤ (D - 1 - k / (D - 1)) * D :=
      Nat.mul_le_mul_right D hjge
    have hadd : (D2 D + 1) * D = D2 D * D + D := by
      rw [Nat.add_mul, Nat.one_mul]
    unfold center
    omega
  · have hqe : k / (D - 1) + 1 = D2 D := by omega
    have hrD : k % (D - 1) + D2 D < D - 1 :=
      mod_bound_of_div_max (D2 D) (D - 1) k hn hk hqe
    have hj : D - 1 - k / (D - 1) = D2 D := by omega
    rw [hj]
    unfold center
    omega

theorem center_lt_of_mem_bottom_rev (D : ℕ) (hD : D % 2 = 0) (v : ℕ)
    (hv : v ∈ bottom_rev D) : center D < v := by
  obtain ⟨kk, hkk, hveq⟩ := List.mem_iff_getElem.mp hv
  have hrows : D - D2 D = D2 D := by unfold D2; omega
  have hkL : kk < D2 D * (D - 1) - D2 D := by
    have h := hkk
    rw [bottom_rev_length, hrows] at h
    exact h
  have hc := center_lt_bottom_rev_getD D hD kk hkL
  rwa [List.getD_eq_getElem _ _ hkk, hveq] at hc

theorem all_eval_getD (D p : ℕ) (hp : p < center D + 1) :
    (all_eval D).getD p 0 = p := by
  have hsub : p < (List.range (center D + 1)).length := by simpa using hp
  have hlen : p < (all_eval D).length := by
    simp only [all_eval, List.length_append, List.length_range]
    omega
  rw [List.getD_eq_getElem _ _ hlen]
  show (List.range (center D + 1) ++ extra D)[p] = p
  rw [List.getElem_append_left hsub]
  exact List.getElem_range _ _

theorem all_eval_nodup (D : ℕ) (hD : 0 < D) : (all_eval D).Nodup := by
  unfold all_eval
  rw [List.nodup_append]
  refine ⟨List.nodup_range _, ?_, ?_⟩
  · unfold extra arangeStep
    refine List.Nodup.map ?_ (List.nodup_range _)
    intro a b hab
    simp only at hab
    have : D * a = D * b := by omega
    exact Nat.eq_of_mul_eq_mul_left hD this
  · intro v hv1 hv2
    have h1 : v < center D + 1 := List.mem_range.mp hv1
    unfold extra arangeStep at hv2
    obtain ⟨kk, hkmem, hke⟩ := List.mem_map.mp hv2
    have hDD2 : D2 D < D := by unfold D2; omega
    have hadd : (D2 D + 1) * D = D2 D * D + D := by
      rw [Nat.add_mul, Nat.one_mul]
    unfold center at h1
    omega

theorem bottom_rev_nodup (D : ℕ) (hD : D % 2 = 0) : (bottom_rev D).Nodup := by
  rcases Nat.lt_or_ge D 2 with hsmall | h2
  · have h0 : D = 0 := by omega
    subst h0
    decide
  · unfold bottom_rev
    rw [List.nodup_reverse]
    refine List.Nodup.sublist (List.drop_sublist _ _) ?_
    rw [meshRavel_eq D (D2 D) D 1 D (by omega)]
    refine List.Nodup.map ?_ (List.nodup_range _)
    intro a b hab
    have hn : 0 < D - 1 := by omega
    have ha2 : 1 + a % (D - 1) < D := by
      have := Nat.mod_lt a hn
      omega
    have hb2 : 1 + b % (D - 1) < D := by
      have := Nat.mod_lt b hn
      omega
    simp only at hab
    obtain ⟨hx, hy⟩ := mul_add_parts D _ _ _ _ ha2 hb2 hab
    have hda : a / (D - 1) = b / (D - 1) := by omega
    have hma : a % (D - 1) = b % (D - 1) := by omega
    have hu1 := Nat.div_add_mod a (D - 1)
    have hu2 := Nat.div_add_mod b (D - 1)
    rw [hda, hma] at hu1
    omega

theorem writeList_not_mem {α : Type} (idx : List ℕ) :
    ∀ (vals : List α) (img : ℕ → Option α) (p : ℕ), p ∉ idx →
      writeList img idx vals p = img p := by
  induction idx with
  | nil =>
    intro vals img p _
    cases vals <;> rfl
  | cons q qs ih =>
    intro vals img p hp
    rcases vals with _ | ⟨v, vs⟩
    · rfl
    · have h1 : p ≠ q ∧ p ∉ qs := by simpa [List.mem_cons, not_or] using hp
      show writeList (fun x => if x = q then some v else img x) qs vs p = img p
      rw [ih vs _ p h1.2]
      simp [h1.1]

theorem writeList_getD {α : Type} (idx : List ℕ) :
    ∀ (vals : List α) (img : ℕ → Option α) (k : ℕ) (dv : α),
      idx.Nodup → k < idx.length → k < vals.length →
      writeList img idx vals (idx.getD k 0) = some (vals.getD k dv) := by
  induction idx with
  | nil =>
    intro vals img k dv _ hk _
    simp at hk
  | cons q qs ih =>
    intro vals img k dv hnd hk hv
    rcases vals with _ | ⟨v, vs⟩
    · simp at hv
    · rcases k with _ | k'
      · simp only [List.getD_cons_zero]
        show writeList (fun x => if x = q then some v else img x) qs vs q = some v
        have hq : q ∉ qs := (List.nodup_cons.mp hnd).1
        rw [writeList_not_mem qs vs _ q hq]
        simp
      · simp only [List.getD_cons_succ]
        show writeList (fun x => if x = q then some v else img x) qs vs
            (qs.getD k' 0) = some (vs.getD k' dv)
        exact ih vs _ k' dv (List.nodup_cons.mp hnd).2 (by simpa using hk)
          (by simpa using hv)

theorem top_half_length {L : Type} (f : Pt L → ℚ × ℚ) (lattice : ℕ → Pt L)
    (D : ℕ) : (top_half f lattice D).length = (all_eval D).length := by
  simp [top_half]

theorem top_half_getD {L : Type} (f : Pt L → ℚ × ℚ) (lattice : ℕ → Pt L)
    (D : ℕ) (t : ℕ) (ht : t < center D + 1) :
    (top_half f lattice D).getD t (0, 0) = decodeVal f (lattice t) := by
  have h1 : t < (all_eval D).length := by
    simp only [all_eval, List.length_append, List.length_range]
    omega
  have h2 : t < (top_half f lattice D).length := by
    rw [top_half_length]
    exact h1
  rw [List.getD_eq_getElem _ _ h2]
  simp only [top_half, List.map_map, List.getElem_map, Function.comp_apply]
  have hae := all_eval_getD D t ht
  rw [List.getD_eq_getElem _ _ h1] at hae
  exact congrArg (fun z => decodeVal f (lattice z)) hae

end FT

namespace FT

/-- C2: for every even lattice size `D` and every decoder function and
lattice, the full image produced by `forward` satisfies, for every `k` in
range of the index arrays, output at pixel `bottom_rev[k]` = `(real, -imag)`
of the output at pixel `top[k]` — the same function evaluation is reused. -/
theorem forward_conjugate_symmetry {L : Type} (f : Pt L → ℚ × ℚ)
    (lattice : ℕ → Pt L) (D : ℕ) (hD : D % 2 = 0) (k : ℕ)
    (h1 : k < (top D).length) (h2 : k < (bottom_rev D).length) :
    forward f lattice D ((bottom_rev D).getD k 0) =
      Option.map conj2 (forward f lattice D ((top D).getD k 0)) := by
  have hkL : k < D2 D * (D - 1) - D2 D := by rwa [top_length] at h1
  obtain ⟨hd1, hd2, hd3, hd4⟩ := degenerate_bounds D hD k hkL
  have htv_lt : (top D).getD k 0 < center D := top_getD_lt_center D hD k hkL
  have hvals_len : k <
      ((top D).map fun t => conj2 ((top_half f lattice D).getD t (0, 0))).length := by
    simpa using h1
  unfold forward
  rw [writeList_getD (bottom_rev D) _ _ k (conj2 (0, 0)) (bottom_rev_nodup D hD)
    h2 hvals_len]
  have hnb : (top D).getD k 0 ∉ bottom_rev D := by
    intro hmem
    have := center_lt_of_mem_bottom_rev D hD _ hmem
    omega
  rw [writeList_not_mem (bottom_rev D) _ _ _ hnb]
  have htv_len : (top D).getD k 0 < (all_eval D).length := by
    simp only [all_eval, List.length_append, List.length_range]
    omega
  have hth_len : (top D).getD k 0 < (top_half f lattice D).length := by
    rw [top_half_length]
    exact htv_len
  have hinner := writeList_getD (all_eval D) (top_half f lattice D)
    (fun _ => none) ((top D).getD k 0) ((0 : ℚ), (0 : ℚ))
    (all_eval_nodup D (by omega)) htv_len hth_len
  rw [all_eval_getD D ((top D).getD k 0) (by omega)] at hinner
  rw [hinner]
  have hmap : (((top D).map fun t =>
        conj2 ((top_half f lattice D).getD t (0, 0))).getD k (conj2 (0, 0)))
      = conj2 ((top_half f lattice D).getD ((top D).getD k 0) (0, 0)) := by
    rw [List.getD_eq_getElem _ _ hvals_len, List.getD_eq_getElem _ _ h1,
      List.getElem_map]
  rw [hmap, top_half_getD f lattice D _ (by omega), Option.map_some']

theorem forward_conjugate_symmetry_witness :
    forward f0 lat0 4 ((bottom_rev 4).getD 0 0) =
      Option.map conj2 (forward f0 lat0 4 ((top 4).getD 0 0)) :=
  forward_conjugate_symmetry f0 lat0 4 rfl 0 (by decide) (by decide)

/-- C3: for every even `D`, `top` and `bottom_rev` have the same length, and
whenever `top[k] = j*D + i` with `1 ≤ j ≤ D/2` and `1 ≤ i ≤ D-1`, pixel
`bottom_rev[k]` is the point-reflection `(D-j)*D + (D-i)` through the grid
center. -/
theorem top_bottom_rev_pairing (D : ℕ) (hD : D % 2 = 0) :
    (top D).length = (bottom_rev D).length ∧
    ∀ k j i : ℕ, k < (top D).length → 1 ≤ j → j ≤ D2 D → 1 ≤ i → i ≤ D - 1 →
      (top D).getD k 0 = j * D + i →
      (bottom_rev D).getD k 0 = (D - j) * D + (D - i) := by
  constructor
  · rw [top_length, bottom_rev_length]
    have hrows : D - D2 D = D2 D := by unfold D2; omega
    rw [hrows]
  · intro k j i hk hj1 hj2 hi1 hi2 heq
    have hkL : k < D2 D * (D - 1) - D2 D := by rwa [top_length] at hk
    obtain ⟨hd1, hd2, hd3, hd4⟩ := degenerate_bounds D hD k hkL
    rw [top_getD D (by omega) k hkL] at heq
    have hn : 0 < D - 1 := by omega
    have hr : k % (D - 1) < D - 1 := Nat.mod_lt _ hn
    have hi : i < D := by omega
    have hup : 1 + k % (D - 1) < D := by omega
    obtain ⟨hx, hy⟩ := mul_add_parts D _ _ _ _ hup hi heq
    rw [bottom_rev_getD D hD k hkL]
    have e1 : D - 1 - k / (D - 1) = D - j := by omega
    have e2 : D - 1 - k % (D - 1) = D - i := by omega
    rw [e1, e2]

theorem top_bottom_rev_pairing_witness :
    (bottom_rev 8).getD 0 0 = (8 - 1) * 8 + (8 - 1) :=
  (top_bottom_rev_pairing 8 rfl).2 0 1 1 (by decide) (by decide) (by decide)
    (by decide) (by decide) (by decide)

end FT
